import Mathlib

/-!
# Verification of the hasma_repl terminal editor (src/main.rs)

A shallow embedding of the single-file Rust program: the text-buffer data
model (`Canvas`), its edit and movement operations, the escape-sequence
input decoder, the render byte protocol, and the top-level event loop of
`main`, together with theorems settling the specification claims.

Bytes are modelled as `Nat` (the program only ever stores the bytes it
reads, each in 0..=255; no arithmetic overflows are involved).
-/

namespace Hasma

/-! ## Vec helpers

`insertAt i a l` models Rust `Vec::insert(i, a)` and `removeAt i l`
models `Vec::remove(i)` (at the in-range indices the program uses). -/

def insertAt (i : Nat) (a : α) : List α → List α :=
  fun l => l.take i ++ a :: l.drop i

def removeAt (i : Nat) : List α → List α :=
  fun l => l.take i ++ l.drop (i + 1)

/-! ## Key constants (struct Key, src/main.rs lines 9-18) -/

def BACKSPACE : Nat := 127
def ENTER : Nat := 10
def CTRL_D : Nat := 4
def ESCAPE : Nat := 27
def ARROW_UP : Nat × Nat := (91, 65)
def ARROW_DOWN : Nat × Nat := (91, 66)
def ARROW_RIGHT : Nat × Nat := (91, 67)
def ARROW_LEFT : Nat × Nat := (91, 68)

/-! ## Canvas (src/main.rs lines 58-137)

The `handle : StdoutLock` field carries no state relevant to the buffer
or cursor; output is modelled separately by the render byte protocol and
the action traces below. -/

structure Canvas where
  buffer : List (List Nat)
  x : Nat
  y : Nat
deriving DecidableEq, Repr

/-- The line the cursor is on, `canvas.buffer[canvas.y]` (in-range at
every reachable state, see `Inv`). -/
def Canvas.lineAt (c : Canvas) : List Nat :=
  c.buffer.getD c.y []

/-- `Canvas::new()`: one empty line, cursor at the origin. -/
def Canvas.init : Canvas :=
  { buffer := [[]], x := 0, y := 0 }

/-- `Canvas::move_up` (lines 112-117). -/
def Canvas.move_up (c : Canvas) : Canvas :=
  if c.y > 0 then { c with y := c.y - 1, x := 0 } else c

/-- `Canvas::move_down` (lines 119-124). -/
def Canvas.move_down (c : Canvas) : Canvas :=
  if c.y < c.buffer.length - 1 then { c with y := c.y + 1, x := 0 } else c

/-- `Canvas::move_right` (lines 126-130). -/
def Canvas.move_right (c : Canvas) : Canvas :=
  if c.x < c.lineAt.length then { c with x := c.x + 1 } else c

/-- `Canvas::move_left` (lines 132-136). -/
def Canvas.move_left (c : Canvas) : Canvas :=
  if c.x > 0 then { c with x := c.x - 1 } else c

/-- The `Key::ENTER` arm of the event loop (lines 190-206): insert an
empty line after the current row, then either just move down (cursor at
end of line) or drain the tail of the current line into the new row. -/
def Canvas.enter (c : Canvas) : Canvas :=
  let c1 : Canvas :=
    if c.y < c.buffer.length then
      { c with buffer := insertAt (c.y + 1) [] c.buffer }
    else
      { c with buffer := c.buffer ++ [[]] }
  if c1.x = c1.lineAt.length then
    c1.move_down
  else
    let left_over := c1.lineAt.drop c1.x
    let c2 : Canvas := { c1 with buffer := c1.buffer.set c1.y (c1.lineAt.take c1.x) }
    let c3 := c2.move_down
    { c3 with buffer := c3.buffer.set c3.y (c3.lineAt ++ left_over) }

/-- The `Key::BACKSPACE` arm of the event loop (lines 207-225). -/
def Canvas.backspace (c : Canvas) : Canvas :=
  if c.x > 0 then
    { c with buffer := c.buffer.set c.y (removeAt (c.x - 1) c.lineAt), x := c.x - 1 }
  else if c.y > 0 then
    let yp := c.y - 1
    let left_over := c.buffer.getD (yp + 1) []
    let buf1 := removeAt (yp + 1) c.buffer
    let new_x := (buf1.getD yp []).length
    { buffer := buf1.set yp (buf1.getD yp [] ++ left_over), x := new_x, y := yp }
  else
    c

/-- The catch-all printable-byte arm of the event loop (lines 226-233). -/
def Canvas.insertByte (b : Nat) (c : Canvas) : Canvas :=
  let line := c.lineAt
  let line2 := if c.x = line.length then line ++ [b] else insertAt c.x b line
  { c with buffer := c.buffer.set c.y line2, x := c.x + 1 }

/-! ## Logical input events -/

inductive Event
  | insert (b : Nat)
  | enter
  | backspace
  | arrowUp
  | arrowDown
  | arrowLeft
  | arrowRight
deriving DecidableEq, Repr

def Canvas.applyEvent (c : Canvas) : Event → Canvas
  | .insert b => c.insertByte b
  | .enter => c.enter
  | .backspace => c.backspace
  | .arrowUp => c.move_up
  | .arrowDown => c.move_down
  | .arrowLeft => c.move_left
  | .arrowRight => c.move_right

def applyEvents (evs : List Event) (c : Canvas) : Canvas :=
  evs.foldl Canvas.applyEvent c

/-- Apply the event a loop iteration produced, if any. -/
def applyOpt (ev : Option Event) (c : Canvas) : Canvas :=
  match ev with
  | none => c
  | some e => c.applyEvent e

/-! ## The buffer/cursor invariant (spec section 3) -/

/-- Buffer is never empty, the cursor row indexes a line, and the cursor
column is at most that line's length. -/
def Inv (c : Canvas) : Prop :=
  c.buffer ≠ [] ∧ c.y < c.buffer.length ∧ c.x ≤ c.lineAt.length

instance (c : Canvas) : Decidable (Inv c) := by
  unfold Inv
  infer_instance

/-! ## Input decoder state (src/main.rs lines 150-151)

`let mut input_buffer = [0; 4]; let mut index = 0;` — the four-byte
escape accumulator and its write index.  The array is modelled as a
`List Nat` of length 4; the store `input_buffer[index] = b` becomes
`List.set`, which is in bounds whenever `index < 4` (claim C10). -/

structure Decoder where
  ibuf : List Nat
  index : Nat
deriving DecidableEq, Repr

def Decoder.init : Decoder :=
  { ibuf := [0, 0, 0, 0], index := 0 }

/-- The arrow-suffix match `match (input_buffer[1], input_buffer[2])`
(lines 167-181): the four recognized two-byte suffixes, or none. -/
def decodeArrow (p : Nat × Nat) : Option Event :=
  if p = ARROW_UP then some .arrowUp
  else if p = ARROW_DOWN then some .arrowDown
  else if p = ARROW_RIGHT then some .arrowRight
  else if p = ARROW_LEFT then some .arrowLeft
  else none

/-- Outcome of one successful one-byte read in the loop body
(lines 160-236): either the loop continues with a new decoder state and
an optional event applied to the canvas, or it breaks (`Key::CTRL_D`). -/
inductive StepOut
  | cont (d : Decoder) (ev : Option Event)
  | exit
deriving DecidableEq, Repr

/-- One successful byte read: store the byte, bump the index, then either
the escape-sequence branch (`input_buffer[0] == Key::ESCAPE`) or the
regular-character branch on the byte just read (`match buf[0]`). -/
def stepByte (d : Decoder) (b : Nat) : StepOut :=
  let ibuf := d.ibuf.set d.index b
  let index := d.index + 1
  if ibuf.getD 0 0 = ESCAPE then
    if index ≥ 3 then
      .cont { ibuf := ibuf, index := 0 } (decodeArrow (ibuf.getD 1 0, ibuf.getD 2 0))
    else
      .cont { ibuf := ibuf, index := index } none
  else
    if b = CTRL_D then .exit
    else if b = ENTER then .cont { ibuf := ibuf, index := 0 } (some .enter)
    else if b = BACKSPACE then .cont { ibuf := ibuf, index := 0 } (some .backspace)
    else .cont { ibuf := ibuf, index := 0 } (some (.insert b))

/-- Run the decoder over a byte list: final decoder state and the events
emitted, in order.  Consumption stops at a terminating byte, as the loop
breaks there. -/
def runDecoder (d : Decoder) : List Nat → Decoder × List Event
  | [] => (d, [])
  | b :: rest =>
    match stepByte d b with
    | .exit => (d, [])
    | .cont d2 ev =>
      let r := runDecoder d2 rest
      (r.1, ev.toList ++ r.2)

/-- The events a byte list decodes to. -/
def decodeEvents (d : Decoder) (bs : List Nat) : List Event :=
  (runDecoder d bs).2

/-- The decoder-state invariant: the write index stays in {0, 1, 2} and
the accumulator keeps its four slots, so the store
`input_buffer[index] = b` is always in bounds. -/
def DInv (d : Decoder) : Prop :=
  d.index ≤ 2 ∧ d.ibuf.length = 4

instance (d : Decoder) : Decidable (DInv d) := by
  unfold DInv
  infer_instance

/-! ## The event loop and `main` (src/main.rs lines 139-251)

Output calls (`clear_view`, `render`) are modelled as atomic actions
recorded in a trace; each consumes one slot of a success oracle
`ok : Nat → Bool` (false = the underlying `write_all`/`flush` fails, and
the `io::Error` propagates through `?`).  `set_raw_mode` and
`restore_mode` are terminal-attribute syscalls with no modelled output;
they are recorded (for `restore_mode`) and assumed to succeed — only
their invocation matters to the claims. -/

inductive ReadRes
  | zero
  | byte (b : Nat)
  | err
deriving DecidableEq, Repr

inductive Action
  | clearView
  | render (c : Canvas)
  | restoreMode
deriving DecidableEq, Repr

/-- Output-side state: the trace of actions so far and the number of
fallible output calls made (the oracle index). -/
structure OutSt where
  acts : List Action
  n : Nat
deriving DecidableEq, Repr

/-- Perform one fallible output call: record it, advance the oracle. -/
def doCall (ok : Nat → Bool) (s : OutSt) (a : Action) : OutSt × Bool :=
  ({ acts := s.acts ++ [a], n := s.n + 1 }, ok s.n)

inductive LoopOut
  | finished (s : OutSt) (c : Canvas) (d : Decoder)
  | errored (s : OutSt)
  | pending (s : OutSt) (c : Canvas) (d : Decoder)
deriving DecidableEq, Repr

/-- The `loop` of `main` (lines 153-243) over a list of read results:
`finished` = `break` reached (Ctrl-D in idle, or a read error),
`errored` = `canvas.render()?` failed and the error unwound out of
`main`, `pending` = the modelled input ran out with the loop still
going (the real loop would block on the next read). -/
def runLoop (ok : Nat → Bool) : List ReadRes → Decoder → Canvas → OutSt → LoopOut
  | [], d, c, s => .pending s c d
  | r :: rs, d, c, s =>
    match r with
    | .err => .finished s c d
    | .zero =>
      let p := doCall ok s (.render c)
      if p.2 then runLoop ok rs d c p.1 else .errored p.1
    | .byte b =>
      match stepByte d b with
      | .exit => .finished s c d
      | .cont d2 ev =>
        let c2 := applyOpt ev c
        let p := doCall ok s (.render c2)
        if p.2 then runLoop ok rs d2 c2 p.1 else .errored p.1

inductive MainOut
  | ret (acts : List Action) (ok : Bool)
  | blocked (acts : List Action)
deriving DecidableEq, Repr

/-- `main` (lines 139-251): initial `clear_view`, `set_raw_mode`, second
`clear_view`, the loop, then the shutdown sequence `jump_to_top` (zero
the cursor and render), `restore_mode`, final `clear_view`.  Every `?`
that can fire on the output path is modelled. -/
def runMain (ok : Nat → Bool) (inputs : List ReadRes) : MainOut :=
  let s0 : OutSt := { acts := [], n := 0 }
  let p1 := doCall ok s0 .clearView
  if !p1.2 then .ret p1.1.acts false else
  let p2 := doCall ok p1.1 .clearView
  if !p2.2 then .ret p2.1.acts false else
  match runLoop ok inputs Decoder.init Canvas.init p2.1 with
  | .errored s => .ret s.acts false
  | .pending s _ _ => .blocked s.acts
  | .finished s c _ =>
    let c2 : Canvas := { c with x := 0, y := 0 }
    let p3 := doCall ok s (.render c2)
    if !p3.2 then .ret p3.1.acts false else
    let s4 : OutSt := { acts := p3.1.acts ++ [.restoreMode], n := p3.1.n }
    let p5 := doCall ok s4 .clearView
    .ret p5.1.acts p5.2

/-- How many times `restore_mode` was invoked in a trace. -/
def restoreCount (acts : List Action) : Nat :=
  acts.count .restoreMode

def isRender : Action → Bool
  | .render _ => true
  | _ => false

/-- How many renders a trace holds. -/
def renderCount (acts : List Action) : Nat :=
  (acts.filter isRender).length

/-- The render actions the loop emits while consuming the byte inputs
`bs` from decoder state `d` and canvas `c`: one render per byte, each
showing the canvas as of all events decoded from the bytes so far. -/
def renderTrace (d : Decoder) (c : Canvas) (bs : List Nat) : List Action :=
  (List.range bs.length).map
    (fun k => Action.render (applyEvents (decodeEvents d (bs.take (k + 1))) c))

/-! ## The render byte protocol (src/main.rs lines 94-105)

`render` writes `"\x1B[2J\x1B[H"`, then for each line `i` the bytes of
`format!("\x1B[{};1H{}", i + 1, String::from_utf8_lossy(line))`, then
the bytes of `format!("\x1B[{};{}H", y + 1, x + 1)`.
`String::from_utf8_lossy` is the Rust standard library's lossy UTF-8
decoder, modelled byte-for-byte below: valid UTF-8 sequences pass
through unchanged, each maximal invalid subpart becomes U+FFFD
(bytes EF BF BD). -/

/-- The UTF-8 encoding of U+FFFD, the replacement character. -/
def repl : List Nat := [0xEF, 0xBF, 0xBD]

/-- Is `b` a UTF-8 continuation byte (0x80..=0xBF)? -/
def isCont (b : Nat) : Bool :=
  decide (0x80 ≤ b) && decide (b ≤ 0xBF)

/-- Valid second byte of a three-byte sequence led by `b0`. -/
def snd3Ok (b0 b1 : Nat) : Bool :=
  if b0 = 0xE0 then decide (0xA0 ≤ b1) && decide (b1 ≤ 0xBF)
  else if b0 = 0xED then decide (0x80 ≤ b1) && decide (b1 ≤ 0x9F)
  else isCont b1

/-- Valid second byte of a four-byte sequence led by `b0`. -/
def snd4Ok (b0 b1 : Nat) : Bool :=
  if b0 = 0xF0 then decide (0x90 ≤ b1) && decide (b1 ≤ 0xBF)
  else if b0 = 0xF4 then decide (0x80 ≤ b1) && decide (b1 ≤ 0x8F)
  else isCont b1

/-- Bytes of `String::from_utf8_lossy`: on an invalid byte, one
replacement character is emitted for the maximal valid prefix consumed
so far and decoding resumes at the offending byte; a valid but
incomplete sequence at the end of input also becomes one replacement. -/
def utf8Lossy : List Nat → List Nat
  | [] => []
  | b0 :: rest =>
    if b0 < 0x80 then b0 :: utf8Lossy rest
    else if b0 < 0xC2 then repl ++ utf8Lossy rest
    else if b0 ≤ 0xDF then
      match rest with
      | [] => repl
      | b1 :: r1 =>
        if isCont b1 then b0 :: b1 :: utf8Lossy r1
        else repl ++ utf8Lossy (b1 :: r1)
    else if b0 ≤ 0xEF then
      match rest with
      | [] => repl
      | b1 :: r1 =>
        if snd3Ok b0 b1 then
          match r1 with
          | [] => repl
          | b2 :: r2 =>
            if isCont b2 then b0 :: b1 :: b2 :: utf8Lossy r2
            else repl ++ utf8Lossy (b2 :: r2)
        else repl ++ utf8Lossy (b1 :: r1)
    else if b0 ≤ 0xF4 then
      match rest with
      | [] => repl
      | b1 :: r1 =>
        if snd4Ok b0 b1 then
          match r1 with
          | [] => repl
          | b2 :: r2 =>
            if isCont b2 then
              match r2 with
              | [] => repl
              | b3 :: r3 =>
                if isCont b3 then b0 :: b1 :: b2 :: b3 :: utf8Lossy r3
                else repl ++ utf8Lossy (b3 :: r3)
            else repl ++ utf8Lossy (b2 :: r2)
        else repl ++ utf8Lossy (b1 :: r1)
    else repl ++ utf8Lossy rest

/-- Decimal digit bytes of `n`, as `format!` prints a `usize`. -/
def dec (n : Nat) : List Nat :=
  (Nat.toDigits 10 n).map Char.toNat

/-- `"\x1B[2J\x1B[H"` — clear the screen and home the cursor
(`clear_view`, lines 94-96). -/
def clearSeq : List Nat := [27, 91, 50, 74, 27, 91, 72]

/-- Bytes written for the line at index `i`:
`"\x1B[{i+1};1H"` then the lossy re-encoding of the line. -/
def lineWrite (i : Nat) (line : List Nat) : List Nat :=
  [27, 91] ++ dec (i + 1) ++ [59, 49, 72] ++ utf8Lossy line

/-- Bytes positioning the physical cursor at `(y+1, x+1)` (1-based):
`"\x1B[{y+1};{x+1}H"`. -/
def cursorSeq (x y : Nat) : List Nat :=
  [27, 91] ++ dec (y + 1) ++ [59] ++ dec (x + 1) ++ [72]

/-- All bytes written by one call of `Canvas::render` (lines 97-105), in
order: clear+home, each line at its 1-based row, the cursor position. -/
def renderBytes (c : Canvas) : List Nat :=
  clearSeq ++ (c.buffer.enum.map (fun p => lineWrite p.1 p.2)).flatten ++ cursorSeq c.x c.y

/-- Modelled from the spec wording of claim C4 (for the refinement
comparison): identical to `renderBytes` except that step (2) writes each
line's raw stored bytes, not their lossy UTF-8 re-encoding. -/
def renderBytesSpec (c : Canvas) : List Nat :=
  clearSeq ++ (c.buffer.enum.map (fun p => [27, 91] ++ dec (p.1 + 1) ++ [59, 49, 72] ++ p.2)).flatten
    ++ cursorSeq c.x c.y

/-! ## List index lemmas -/

@[simp] theorem length_insertAt (i : Nat) (a : α) (l : List α) :
    (insertAt i a l).length = l.length + 1 := by
  simp [insertAt]
  omega

theorem length_removeAt (i : Nat) (l : List α) (h : i < l.length) :
    (removeAt i l).length = l.length - 1 := by
  simp [removeAt]
  omega

theorem insertAt_zero (a : α) (l : List α) : insertAt 0 a l = a :: l := by
  simp [insertAt]

theorem insertAt_cons_succ (k : Nat) (a x : α) (xs : List α) :
    insertAt (k + 1) a (x :: xs) = x :: insertAt k a xs := by
  simp [insertAt]

theorem removeAt_cons_succ (k : Nat) (x : α) (xs : List α) :
    removeAt (k + 1) (x :: xs) = x :: removeAt k xs := by
  simp [removeAt]

theorem getD_set_self (l : List α) (i : Nat) (a d : α) (h : i < l.length) :
    (l.set i a).getD i d = a := by
  induction l generalizing i with
  | nil => simp at h
  | cons x xs ih =>
    cases i with
    | zero => simp
    | succ n => simpa using ih n (by simpa using h)

theorem getD_set_ne (l : List α) (i j : Nat) (a d : α) (h : i ≠ j) :
    (l.set i a).getD j d = l.getD j d := by
  induction l generalizing i j with
  | nil => simp
  | cons x xs ih =>
    cases i with
    | zero =>
      cases j with
      | zero => exact absurd rfl h
      | succ m => simp
    | succ n =>
      cases j with
      | zero => simp
      | succ m => simpa using ih n m (by omega)

theorem getD_insertAt_lt (k i : Nat) (a : α) (l : List α) (d : α)
    (hik : i < k) (hil : i < l.length) :
    (insertAt k a l).getD i d = l.getD i d := by
  induction l generalizing i k with
  | nil => simp at hil
  | cons x xs ih =>
    cases k with
    | zero => omega
    | succ n =>
      rw [insertAt_cons_succ]
      cases i with
      | zero => simp
      | succ m => simpa using ih n m (by omega) (by simpa using hil)

theorem getD_removeAt_lt (k i : Nat) (l : List α) (d : α) (hik : i < k) :
    (removeAt k l).getD i d = l.getD i d := by
  induction l generalizing i k with
  | nil => simp [removeAt]
  | cons x xs ih =>
    cases k with
    | zero => omega
    | succ n =>
      rw [removeAt_cons_succ]
      cases i with
      | zero => simp
      | succ m => simpa using ih n m (by omega)

theorem set_ne_nil (l : List α) (i : Nat) (a : α) (h : l ≠ []) : l.set i a ≠ [] := by
  cases l with
  | nil => exact absurd rfl h
  | cons x xs => cases i <;> simp

/-! ## Invariant preservation (claim C2) -/

theorem inv_move_up {c : Canvas} (h : Inv c) : Inv c.move_up := by
  obtain ⟨h1, h2, h3⟩ := h
  unfold Canvas.move_up
  split
  · refine ⟨h1, ?_, ?_⟩
    · dsimp only
      omega
    · dsimp only
      exact Nat.zero_le _
  · exact ⟨h1, h2, h3⟩

theorem inv_move_down {c : Canvas} (h : Inv c) : Inv c.move_down := by
  obtain ⟨h1, h2, h3⟩ := h
  unfold Canvas.move_down
  split
  · next hlt =>
    refine ⟨h1, ?_, ?_⟩
    · dsimp only
      omega
    · dsimp only
      exact Nat.zero_le _
  · exact ⟨h1, h2, h3⟩

theorem inv_move_left {c : Canvas} (h : Inv c) : Inv c.move_left := by
  obtain ⟨h1, h2, h3⟩ := h
  unfold Canvas.move_left
  split
  · refine ⟨h1, h2, ?_⟩
    simp only [Canvas.lineAt] at h3 ⊢
    omega
  · exact ⟨h1, h2, h3⟩

theorem inv_move_right {c : Canvas} (h : Inv c) : Inv c.move_right := by
  obtain ⟨h1, h2, h3⟩ := h
  unfold Canvas.move_right
  split
  · next hlt =>
    refine ⟨h1, h2, ?_⟩
    simp only [Canvas.lineAt] at hlt ⊢
    omega
  · exact ⟨h1, h2, h3⟩

theorem inv_insertByte {c : Canvas} (b : Nat) (h : Inv c) : Inv (c.insertByte b) := by
  obtain ⟨h1, h2, h3⟩ := h
  unfold Canvas.insertByte
  refine ⟨?_, ?_, ?_⟩
  · dsimp only
    exact set_ne_nil _ _ _ h1
  · dsimp only
    rw [List.length_set]
    exact h2
  · simp only [Canvas.lineAt] at h3 ⊢
    rw [getD_set_self _ _ _ _ h2]
    split
    · simp only [List.length_append, List.length_cons, List.length_nil]
      omega
    · rw [length_insertAt]
      omega

theorem inv_enter {c : Canvas} (h : Inv c) : Inv c.enter := by
  obtain ⟨h1, h2, h3⟩ := h
  have hne : insertAt (c.y + 1) ([] : List Nat) c.buffer ≠ [] := by
    intro hemp
    have hl := congrArg List.length hemp
    rw [length_insertAt] at hl
    simp at hl
  unfold Canvas.enter
  simp only [if_pos h2]
  split
  · -- cursor at end of line: just the new empty row and move_down
    unfold Canvas.move_down
    rw [if_pos (by dsimp only; rw [length_insertAt]; omega)]
    refine ⟨hne, ?_, Nat.zero_le _⟩
    dsimp only
    rw [length_insertAt]
    omega
  · -- split the line: take the head part, move down, append the tail
    unfold Canvas.move_down
    rw [if_pos (by dsimp only; rw [List.length_set, length_insertAt]; omega)]
    refine ⟨?_, ?_, Nat.zero_le _⟩
    · dsimp only
      exact set_ne_nil _ _ _ (set_ne_nil _ _ _ hne)
    · dsimp only
      rw [List.length_set, List.length_set, length_insertAt]
      omega

theorem inv_backspace {c : Canvas} (h : Inv c) : Inv c.backspace := by
  obtain ⟨h1, h2, h3⟩ := h
  unfold Canvas.backspace
  split
  · -- x > 0: remove one byte from the current line
    next hx =>
    refine ⟨?_, ?_, ?_⟩
    · dsimp only
      exact set_ne_nil _ _ _ h1
    · dsimp only
      rw [List.length_set]
      exact h2
    · simp only [Canvas.lineAt] at h3 ⊢
      rw [getD_set_self _ _ _ _ h2]
      rw [length_removeAt _ _ (by omega)]
      omega
  · next hx =>
    split
    · -- x = 0, y > 0: merge into the previous line
      next hy =>
      have hyl : c.y - 1 + 1 = c.y := by omega
      dsimp only
      rw [hyl]
      have hb1 : (removeAt c.y c.buffer).length = c.buffer.length - 1 :=
        length_removeAt c.y c.buffer h2
      refine ⟨?_, ?_, ?_⟩
      · apply set_ne_nil
        intro hemp
        have hl := congrArg List.length hemp
        rw [hb1] at hl
        simp at hl
        omega
      · rw [List.length_set, hb1]
        dsimp only
        omega
      · simp only [Canvas.lineAt]
        rw [getD_set_self _ _ _ _ (by rw [hb1]; omega)]
        simp
    · exact ⟨h1, h2, h3⟩

theorem inv_applyEvent {c : Canvas} (e : Event) (h : Inv c) : Inv (c.applyEvent e) := by
  cases e with
  | insert b => exact inv_insertByte b h
  | enter => exact inv_enter h
  | backspace => exact inv_backspace h
  | arrowUp => exact inv_move_up h
  | arrowDown => exact inv_move_down h
  | arrowLeft => exact inv_move_left h
  | arrowRight => exact inv_move_right h

theorem inv_applyEvents {c : Canvas} (evs : List Event) (h : Inv c) :
    Inv (applyEvents evs c) := by
  induction evs generalizing c with
  | nil => exact h
  | cons e rest ih => exact ih (inv_applyEvent e h)

/-! ## Decoder lemmas -/

theorem stepByte_cont_ibuf {d : Decoder} {b : Nat} {d2 : Decoder} {ev : Option Event}
    (hs : stepByte d b = .cont d2 ev) : d2.ibuf = d.ibuf.set d.index b := by
  unfold stepByte at hs
  dsimp only at hs
  split at hs
  · split at hs <;> (injection hs with e1 e2; subst e1; rfl)
  · split at hs
    · exact absurd hs (by simp)
    · split at hs
      · injection hs with e1 e2
        subst e1
        rfl
      · split at hs <;> (injection hs with e1 e2; subst e1; rfl)

theorem stepByte_cont_index {d : Decoder} {b : Nat} {d2 : Decoder} {ev : Option Event}
    (hs : stepByte d b = .cont d2 ev) :
    d2.index = 0 ∨ (d2.index = d.index + 1 ∧ d.index + 1 < 3) := by
  unfold stepByte at hs
  dsimp only at hs
  split at hs
  · split at hs
    · next hge =>
      injection hs with e1 e2
      subst e1
      exact Or.inl rfl
    · next hge =>
      injection hs with e1 e2
      subst e1
      exact Or.inr ⟨rfl, by omega⟩
  · split at hs
    · exact absurd hs (by simp)
    · split at hs
      · injection hs with e1 e2
        subst e1
        exact Or.inl rfl
      · split at hs <;> (injection hs with e1 e2; subst e1; exact Or.inl rfl)

theorem dinv_stepByte {d : Decoder} {b : Nat} {d2 : Decoder} {ev : Option Event}
    (h : DInv d) (hs : stepByte d b = .cont d2 ev) : DInv d2 := by
  obtain ⟨hi, hl⟩ := h
  refine ⟨?_, ?_⟩
  · rcases stepByte_cont_index hs with h0 | ⟨h1, h2⟩
    · omega
    · omega
  · rw [stepByte_cont_ibuf hs, List.length_set]
    exact hl

theorem dinv_runDecoder (d : Decoder) (bs : List Nat) (h : DInv d) :
    DInv (runDecoder d bs).1 := by
  induction bs generalizing d with
  | nil => exact h
  | cons b rest ih =>
    unfold runDecoder
    cases hs : stepByte d b with
    | exit => exact h
    | cont d2 ev =>
      dsimp only
      exact ih d2 (dinv_stepByte h hs)

/-- C10: the pending-buffer write index is always in {0, 1, 2} at the
point where an incoming byte is stored: every decoder state reachable
from the initial one (over any input byte sequence) has `index ≤ 2` and
a 4-slot accumulator, so the store `input_buffer[index] = b` performed
by the next `stepByte` is in bounds and the accumulator never
overflows. -/
theorem C10_escape_index_in_bounds (bs : List Nat) :
    (runDecoder Decoder.init bs).1.index < 3 ∧
    (runDecoder Decoder.init bs).1.index < (runDecoder Decoder.init bs).1.ibuf.length := by
  have h := dinv_runDecoder Decoder.init bs (by decide)
  obtain ⟨hi, hl⟩ := h
  exact ⟨by omega, by omega⟩

/-- C3: the escape decoder accepts sequences at exactly 3 buffered
bytes.  From the initial (idle) state, after the escape byte 27 and one
more byte no event is emitted and the decoder keeps accumulating
(index 2); after the third byte the 2nd/3rd bytes are matched against
the arrow suffixes, emitting the matching arrow event or nothing, and in
both cases the index resets to 0 (idle).  In particular [27, 91, 65]
(ESC [ A) yields ArrowUp, and [27, 91, 90] (ESC [ Z) yields no event
with the decoder back in idle. -/
theorem C3_escape_decoder_three_bytes (b1 b2 : Nat) :
    decodeEvents Decoder.init [27, b1] = [] ∧
    (runDecoder Decoder.init [27, b1]).1.index = 2 ∧
    decodeEvents Decoder.init [27, b1, b2] = (decodeArrow (b1, b2)).toList ∧
    (runDecoder Decoder.init [27, b1, b2]).1.index = 0 ∧
    decodeEvents Decoder.init [27, 91, 65] = [.arrowUp] ∧
    decodeEvents Decoder.init [27, 91, 90] = [] ∧
    (runDecoder Decoder.init [27, 91, 90]).1.index = 0 := by
  refine ⟨?_, ?_, ?_, ?_, by decide, by decide, by decide⟩ <;>
    simp [decodeEvents, runDecoder, stepByte, Decoder.init, ESCAPE, CTRL_D, ENTER, BACKSPACE]

/-- C9: the end-of-session byte 4 terminates only from the idle state.
From any decoder state with `index = 0` (idle), byte 4 makes the loop
break; from an escape-pending state (`index ≥ 1`, accumulator headed by
the escape byte 27) byte 4 is absorbed: it does not terminate, and as a
3rd byte it at most completes an unrecognized sequence that is silently
dropped, the decoder returning to idle. -/
theorem C9_ctrl_d_only_terminates_idle (d : Decoder) (b : Nat) :
    (d.index = 0 → stepByte d 4 = .exit) ∧
    (1 ≤ d.index → d.ibuf.getD 0 0 = 27 → stepByte d 4 ≠ .exit) ∧
    decodeEvents Decoder.init [27, b, 4] = [] ∧
    (runDecoder Decoder.init [27, b, 4]).1.index = 0 ∧
    decodeEvents Decoder.init [27, 4] = [] ∧
    (runDecoder Decoder.init [27, 4]).1.index = 2 := by
  refine ⟨?_, ?_, ?_, ?_, by decide, by decide⟩
  · intro h0
    unfold stepByte
    rw [h0]
    cases d.ibuf with
    | nil => simp [ESCAPE, CTRL_D]
    | cons x xs => simp [ESCAPE, CTRL_D]
  · intro h1 h27
    unfold stepByte
    dsimp only
    rw [getD_set_ne _ _ _ _ _ (by omega)]
    simp only [ESCAPE]
    rw [if_pos h27]
    split <;> simp
  · simp [decodeEvents, runDecoder, stepByte, Decoder.init, ESCAPE, CTRL_D, ENTER, BACKSPACE,
      decodeArrow, ARROW_UP, ARROW_DOWN, ARROW_RIGHT, ARROW_LEFT, Prod.ext_iff]
  · simp [decodeEvents, runDecoder, stepByte, Decoder.init, ESCAPE, CTRL_D, ENTER, BACKSPACE,
      decodeArrow, ARROW_UP, ARROW_DOWN, ARROW_RIGHT, ARROW_LEFT, Prod.ext_iff]

/-- Witness for C9 at concrete states: byte 4 exits from an idle state
and is absorbed in an escape-pending state. -/
theorem C9_witness :
    stepByte { ibuf := [0, 0, 0, 0], index := 0 } 4 = .exit ∧
    stepByte { ibuf := [27, 0, 0, 0], index := 1 } 4 ≠ .exit :=
  ⟨(C9_ctrl_d_only_terminates_idle { ibuf := [0, 0, 0, 0], index := 0 } 0).1 rfl,
   (C9_ctrl_d_only_terminates_idle { ibuf := [27, 0, 0, 0], index := 1 } 0).2.1
     (by decide) (by decide)⟩

/-- C2: for every sequence of input events applied from the initial
state (one empty line, cursor (0,0)), the buffer holds at least one line
and the cursor satisfies `row < number of lines` and
`col ≤ length of the line at row`; since every prefix of the sequence is
itself such a sequence, this holds after each event, so no operation can
produce an out-of-range cursor or an empty buffer. -/
theorem C2_buffer_cursor_invariant (evs : List Event) :
    (applyEvents evs Canvas.init).buffer ≠ [] ∧
    (applyEvents evs Canvas.init).y < (applyEvents evs Canvas.init).buffer.length ∧
    (applyEvents evs Canvas.init).x ≤
      ((applyEvents evs Canvas.init).buffer.getD (applyEvents evs Canvas.init).y []).length := by
  have h := inv_applyEvents (c := Canvas.init) evs (by decide)
  obtain ⟨h1, h2, h3⟩ := h
  exact ⟨h1, h2, h3⟩

/-- C8 counterexample: inserting the printable byte 97 at the initial
state mutates both the buffer contents and the cursor position, so a
single keystroke event does not mutate at most one of the two. -/
theorem C8_counterexample :
    (Canvas.init.applyEvent (.insert 97)).buffer ≠ Canvas.init.buffer ∧
    ((Canvas.init.applyEvent (.insert 97)).x, (Canvas.init.applyEvent (.insert 97)).y) ≠
      (Canvas.init.x, Canvas.init.y) := by
  decide

/-- C8 amended: the four arrow-movement events mutate only the cursor
position and never the buffer contents; the editing events (printable
byte, Enter, Backspace) may mutate both the buffer and the cursor. -/
theorem C8_amended_arrows_fix_buffer (c : Canvas) :
    (c.applyEvent .arrowUp).buffer = c.buffer ∧
    (c.applyEvent .arrowDown).buffer = c.buffer ∧
    (c.applyEvent .arrowLeft).buffer = c.buffer ∧
    (c.applyEvent .arrowRight).buffer = c.buffer := by
  refine ⟨?_, ?_, ?_, ?_⟩ <;>
    simp only [Canvas.applyEvent, Canvas.move_up, Canvas.move_down, Canvas.move_left,
      Canvas.move_right] <;>
    split <;> rfl

/-- Removing line `y` and appending it onto line `y - 1` produces the
buffer with lines `y - 1` and `y` merged in place. -/
theorem merge_buffer_eq (l : List (List Nat)) (y : Nat) (hy : 1 ≤ y) (h2 : y < l.length) :
    (removeAt y l).set (y - 1) ((removeAt y l).getD (y - 1) [] ++ l.getD y []) =
      l.take (y - 1) ++ (l.getD (y - 1) [] ++ l.getD y []) :: l.drop (y + 1) := by
  induction l generalizing y with
  | nil => simp at h2
  | cons a rest ih =>
    cases y with
    | zero => omega
    | succ n =>
      cases n with
      | zero =>
        cases rest with
        | nil => simp at h2
        | cons b rest2 => simp [removeAt]
      | succ m =>
        rw [removeAt_cons_succ]
        have hs : m + 1 + 1 - 1 = m + 1 - 1 + 1 := by omega
        rw [hs]
        simp only [List.set_cons_succ, List.getD_cons_succ, List.take_succ_cons,
          List.drop_succ_cons, List.cons_append, List.cons.injEq, true_and]
        have hrest := ih (m + 1) (by omega) (by simp at h2; omega)
        simpa using hrest

/-- C5: `backspace` behaves by exactly three cases.  If col > 0 it
removes the byte at col-1 of the current line and decrements col; else
if row > 0 it merges the current line onto the end of the previous line,
removes the current line, decrements row, and sets col to the previous
line's pre-merge length; else (row = col = 0) buffer and cursor are both
unchanged. -/
theorem C5_backspace_cases (c : Canvas) (h : Inv c) :
    (0 < c.x → c.backspace =
      { buffer := c.buffer.set c.y (c.lineAt.take (c.x - 1) ++ c.lineAt.drop c.x),
        x := c.x - 1, y := c.y }) ∧
    (c.x = 0 → 0 < c.y → c.backspace =
      { buffer := c.buffer.take (c.y - 1) ++
          (c.buffer.getD (c.y - 1) [] ++ c.lineAt) :: c.buffer.drop (c.y + 1),
        x := (c.buffer.getD (c.y - 1) []).length, y := c.y - 1 }) ∧
    (c.x = 0 → c.y = 0 → c.backspace = c) := by
  obtain ⟨h1, h2, h3⟩ := h
  refine ⟨?_, ?_, ?_⟩
  · intro hx
    unfold Canvas.backspace
    rw [if_pos hx]
    simp only [removeAt]
    have hxx : c.x - 1 + 1 = c.x := by omega
    rw [hxx]
  · intro hx hy
    unfold Canvas.backspace
    rw [if_neg (by omega), if_pos hy]
    dsimp only
    have hy1 : c.y - 1 + 1 = c.y := by omega
    rw [hy1]
    have hgd : (removeAt c.y c.buffer).getD (c.y - 1) [] = c.buffer.getD (c.y - 1) [] :=
      getD_removeAt_lt c.y (c.y - 1) c.buffer [] (by omega)
    rw [hgd]
    have hbuf := merge_buffer_eq c.buffer c.y (by omega) h2
    rw [hgd] at hbuf
    rw [hbuf]
    rfl
  · intro hx hy
    unfold Canvas.backspace
    rw [if_neg (by omega), if_neg (by omega)]

/-- Witness for C5 at a concrete state: backspace at column 1 of the one
line "ab" deletes the byte 97. -/
theorem C5_witness :
    Canvas.backspace { buffer := [[97, 98]], x := 1, y := 0 } =
      { buffer := [[98]], x := 0, y := 0 } := by
  have h := (C5_backspace_cases { buffer := [[97, 98]], x := 1, y := 0 } (by decide)).1
    (by decide)
  simpa [Canvas.lineAt] using h

/-- C6: on a single-line buffer with the cursor at any valid column,
`insert_line_break` (Enter) followed immediately by `backspace` from the
resulting cursor position restores the original line content and the
original cursor column (including a break at column 0 of a non-empty
line, where the restored cursor column is 0). -/
theorem C6_enter_backspace_roundtrip (l : List Nat) (cx : Nat) (hcx : cx ≤ l.length) :
    Canvas.backspace (Canvas.enter { buffer := [l], x := cx, y := 0 }) =
      { buffer := [l], x := cx, y := 0 } := by
  by_cases hc : cx = l.length
  · subst hc
    unfold Canvas.enter
    simp [Canvas.lineAt, insertAt, Canvas.move_down, Canvas.backspace, removeAt]
  · have hmin : min cx l.length = cx := by omega
    unfold Canvas.enter
    simp [Canvas.lineAt, insertAt, Canvas.move_down, Canvas.backspace, removeAt, hc, hmin]

/-- Witness for C6: break at column 1 of "hi" and undo it. -/
theorem C6_witness :
    Canvas.backspace (Canvas.enter { buffer := [[104, 105]], x := 1, y := 0 }) =
      { buffer := [[104, 105]], x := 1, y := 0 } :=
  C6_enter_backspace_roundtrip [104, 105] 1 (by decide)

/-! ## Event-loop lemmas -/

theorem stepByte_cont_of_ne_four (d : Decoder) (b : Nat) (hb : b ≠ 4) :
    ∃ d2 ev, stepByte d b = .cont d2 ev := by
  unfold stepByte
  dsimp only
  split
  · split
    · exact ⟨_, _, rfl⟩
    · exact ⟨_, _, rfl⟩
  · rw [if_neg (by simpa [CTRL_D] using hb)]
    split
    · exact ⟨_, _, rfl⟩
    · split
      · exact ⟨_, _, rfl⟩
      · exact ⟨_, _, rfl⟩

theorem decodeEvents_cons {d : Decoder} {b : Nat} {d2 : Decoder} {ev : Option Event}
    (hs : stepByte d b = .cont d2 ev) (bs : List Nat) :
    decodeEvents d (b :: bs) = ev.toList ++ decodeEvents d2 bs := by
  unfold decodeEvents
  conv_lhs => rw [runDecoder]
  rw [hs]

theorem runDecoder_fst_cons {d : Decoder} {b : Nat} {d2 : Decoder} {ev : Option Event}
    (hs : stepByte d b = .cont d2 ev) (bs : List Nat) :
    (runDecoder d (b :: bs)).1 = (runDecoder d2 bs).1 := by
  conv_lhs => rw [runDecoder]
  rw [hs]

theorem applyEvents_append (xs ys : List Event) (c : Canvas) :
    applyEvents (xs ++ ys) c = applyEvents ys (applyEvents xs c) := by
  simp [applyEvents]

theorem applyEvents_toList (ev : Option Event) (c : Canvas) :
    applyEvents ev.toList c = applyOpt ev c := by
  cases ev <;> rfl

theorem renderTrace_cons {d : Decoder} {b : Nat} {d2 : Decoder} {ev : Option Event}
    (hs : stepByte d b = .cont d2 ev) (c : Canvas) (bs : List Nat) :
    renderTrace d c (b :: bs) =
      Action.render (applyOpt ev c) :: renderTrace d2 (applyOpt ev c) bs := by
  unfold renderTrace
  rw [List.length_cons, List.range_succ_eq_map, List.map_cons, List.map_map]
  congr 1
  · simp only [Nat.zero_add, List.take_succ_cons, List.take_zero]
    rw [decodeEvents_cons hs]
    simp [decodeEvents, runDecoder, applyEvents_toList]
  · apply List.map_congr_left
    intro k hk
    simp only [Function.comp_apply, Nat.succ_eq_add_one, List.take_succ_cons]
    rw [decodeEvents_cons hs, applyEvents_append, applyEvents_toList]

/-- C7 amended: with all output writes succeeding, the loop performs
exactly one render per consumed byte read — even for a byte that
completes no event, such as a pending escape byte — and the k-th render
shows the canvas as of all events decoded from the first k+1 bytes, i.e.
the state as of the most recently completed event; the final canvas is
the one obtained by applying every decoded event in order. -/
theorem C7_amended_render_per_read (bs : List Nat) (d : Decoder) (c : Canvas) (s : OutSt)
    (hb : 4 ∉ bs) :
    runLoop (fun _ => true) (bs.map .byte) d c s =
      .pending { acts := s.acts ++ renderTrace d c bs, n := s.n + bs.length }
        (applyEvents (decodeEvents d bs) c) (runDecoder d bs).1 := by
  revert hb
  induction bs generalizing d c s with
  | nil =>
    intro hb
    simp [runLoop, renderTrace, decodeEvents, runDecoder, applyEvents]
  | cons b rest ih =>
    intro hb
    have hb4 : b ≠ 4 := by
      intro hbe
      exact hb (by simp [hbe])
    have hrest : 4 ∉ rest := by
      intro hm
      exact hb (by simp [hm])
    obtain ⟨d2, ev, hs⟩ := stepByte_cont_of_ne_four d b hb4
    rw [List.map_cons]
    unfold runLoop
    dsimp only
    rw [hs]
    dsimp only [doCall]
    rw [ih d2 (applyOpt ev c) _ hrest]
    rw [renderTrace_cons hs, decodeEvents_cons hs, runDecoder_fst_cons hs,
      applyEvents_append, applyEvents_toList]
    simp [List.append_assoc, Nat.add_comm, Nat.add_assoc, Nat.add_left_comm]

/-- Witness for the amended C7 on the single byte 104. -/
theorem C7_amended_witness :
    runLoop (fun _ => true) ([104].map .byte) Decoder.init Canvas.init
        { acts := [], n := 0 } =
      .pending { acts := [] ++ renderTrace Decoder.init Canvas.init [104], n := 0 + 1 }
        (applyEvents (decodeEvents Decoder.init [104]) Canvas.init)
        (runDecoder Decoder.init [104]).1 :=
  C7_amended_render_per_read [104] Decoder.init Canvas.init { acts := [], n := 0 }
    (by decide)

/-- C7 counterexample: a lone escape byte 27 completes no event, yet the
loop iteration that consumed it still performed a render, so a render is
not tied to a processed event (it happens once per read instead). -/
theorem C7_counterexample :
    decodeEvents Decoder.init [27] = [] ∧
    runMain (fun _ => true) [ReadRes.byte 27] =
      .blocked [Action.clearView, Action.clearView, Action.render Canvas.init] ∧
    renderCount [Action.clearView, Action.clearView, Action.render Canvas.init] = 1 := by
  refine ⟨by decide, by decide, by decide⟩

/-- C1: evaluating `main` at the failing input.  With the terminal in
raw mode and the input byte 104, an output-write failure at the loop's
render (the third output call) makes `main` return the error without
ever invoking `restore_mode` (restore count 0), while the same input
followed by the end-of-session byte 4 under error-free output invokes
`restore_mode` exactly once — so restoration is skipped exactly on the
render-error exit path, contrary to the claim. -/
theorem C1_render_error_skips_restore_mode :
    runMain (fun n => decide (n < 2)) [ReadRes.byte 104] =
      .ret [Action.clearView, Action.clearView,
        Action.render { buffer := [[104]], x := 1, y := 0 }] false ∧
    restoreCount [Action.clearView, Action.clearView,
      Action.render { buffer := [[104]], x := 1, y := 0 }] = 0 ∧
    runMain (fun _ => true) [ReadRes.byte 104, ReadRes.byte 4] =
      .ret [Action.clearView, Action.clearView,
        Action.render { buffer := [[104]], x := 1, y := 0 },
        Action.render { buffer := [[104]], x := 0, y := 0 },
        Action.restoreMode, Action.clearView] true ∧
    restoreCount [Action.clearView, Action.clearView,
      Action.render { buffer := [[104]], x := 1, y := 0 },
      Action.render { buffer := [[104]], x := 0, y := 0 },
      Action.restoreMode, Action.clearView] = 1 := by
  refine ⟨by decide, by decide, by decide, by decide⟩

/-! ## Render byte lemmas (claim C4) -/

theorem utf8Lossy_ascii (l : List Nat) (h : ∀ b ∈ l, b < 128) : utf8Lossy l = l := by
  induction l with
  | nil => rfl
  | cons b rest ih =>
    have hb : b < 128 := h b (by simp)
    unfold utf8Lossy
    rw [if_pos hb]
    rw [ih (fun x hx => h x (by simp [hx]))]

theorem lineWrites_ascii (k : Nat) (ls : List (List Nat))
    (h : ∀ l ∈ ls, ∀ b ∈ l, b < 128) :
    ((ls.enumFrom k).map (fun p => lineWrite p.1 p.2)).flatten =
      ((ls.enumFrom k).map
        (fun p => [27, 91] ++ dec (p.1 + 1) ++ [59, 49, 72] ++ p.2)).flatten := by
  induction ls generalizing k with
  | nil => rfl
  | cons l rest ih =>
    simp only [List.enumFrom_cons, List.map_cons, List.flatten_cons]
    rw [ih (k + 1) (fun x hx => h x (by simp [hx]))]
    unfold lineWrite
    rw [utf8Lossy_ascii l (h l (by simp))]

/-- C4 counterexample: render does not write each line's stored bytes
verbatim.  For the buffer holding the single line [255] (one byte that
is not valid UTF-8), the bytes `render` writes differ from the raw-bytes
protocol of the claim: byte 255 is re-encoded as the replacement
character EF BF BD by `String::from_utf8_lossy`. -/
theorem C4_counterexample :
    renderBytes { buffer := [[255]], x := 0, y := 0 } ≠
      renderBytesSpec { buffer := [[255]], x := 0, y := 0 } := by
  decide

/-- C4 amended: `render` writes, in order, (1) clear-screen + home,
(2) for every line in buffer order at the 1-based row index+1 the lossy
UTF-8 re-encoding of that line's bytes — which equals the stored bytes
verbatim whenever they are plain ASCII (all bytes < 128) — and (3) the
cursor-position sequence for (row+1, col+1): under the ASCII condition
the write stream coincides with the claim's raw-bytes protocol. -/
theorem C4_amended_render_ascii (c : Canvas)
    (h : ∀ l ∈ c.buffer, ∀ b ∈ l, b < 128) :
    renderBytes c = renderBytesSpec c := by
  unfold renderBytes renderBytesSpec
  rw [show c.buffer.enum = c.buffer.enumFrom 0 from rfl]
  rw [lineWrites_ascii 0 c.buffer h]

/-- Witness for the amended C4 on the ASCII buffer ["h"]. -/
theorem C4_amended_witness :
    renderBytes { buffer := [[104]], x := 0, y := 0 } =
      renderBytesSpec { buffer := [[104]], x := 0, y := 0 } :=
  C4_amended_render_ascii { buffer := [[104]], x := 0, y := 0 } (by decide)

end Hasma
